import Mathlib

/-!
Shallow embedding of the agent-monitor server (session registry, frame
decoder, event translator, correlation tracker) and proofs of the spec
claims about it.  Definitions mirror the JavaScript source: JS `Map` is
an association list, JS truthiness of strings is an explicit emptiness
test, the mutable correlation map is threaded as explicit state, and
broadcast is modelled as an emitted event list.
-/

/-- JS string truthiness: `a || b` where both are strings-or-undefined. -/
def jsOr (a b : Option String) : Option String :=
  match a with
  | some s => if s = "" then b else some s
  | none => b

/-- JS `a || d` with a string default (e.g. `event.cwd || workDir`). -/
def jsOrS (a : Option String) (d : String) : String :=
  match a with
  | some s => if s = "" then d else s
  | none => d

/-- Template-literal interpolation of a possibly-undefined value. -/
def showOpt : Option String → String
  | some s => s
  | none => "undefined"

/-- JS `x || ""` (used for `input.description || ""`). -/
def jsOrEmpty (a : Option String) : String :=
  match a with
  | some s => s
  | none => ""

/-- Association-list model of a JS `Map` with string keys: lookup. -/
def aget {α : Type} : List (String × α) → String → Option α
  | [], _ => none
  | (k, v) :: rest, key => if k = key then some v else aget rest key

/-- Association-list model of a JS `Map`: `set` (update in place or append). -/
def aset {α : Type} : List (String × α) → String → α → List (String × α)
  | [], key, v => [(key, v)]
  | (k, w) :: rest, key, v =>
      if k = key then (key, v) :: rest else (k, w) :: aset rest key v

/-- Association-list model of a JS `Map`: `delete`. -/
def adel {α : Type} : List (String × α) → String → List (String × α)
  | [], _ => []
  | (k, w) :: rest, key => if k = key then rest else (k, w) :: adel rest key

/-- The fields of `block.input` that the translator reads. Absent JSON
fields are `none` (JS `undefined`). -/
structure ToolInput where
  file_path : Option String
  content : Option String
  old_string : Option String
  new_string : Option String
  command : Option String
  description : Option String
  pattern : Option String
  path : Option String
  subagent_type : Option String
  prompt : Option String
deriving DecidableEq, Repr

/-- A `ToolInput` with every field absent. -/
def emptyInput : ToolInput :=
  ⟨none, none, none, none, none, none, none, none, none, none⟩

/-- A pending-mutation descriptor stored in the correlation map
(`fileChanges.set(id, { filePath, action })`). -/
structure FileChange where
  filePath : Option String
  action : String
deriving DecidableEq, Repr

/-- The per-session correlation tracker (`fileChanges` JS `Map`). -/
abbrev CorrMap := List (String × FileChange)

/-- `tool_result` block content: a string, or any other JSON value carried
by its `JSON.stringify(content, null, 2)` rendering. -/
inductive RContent where
  | str (s : String)
  | verbatim (pretty : String)
deriving DecidableEq, Repr

/-- The text the translator extracts from a `tool_result` content field. -/
def RContent.textOf : RContent → String
  | .str s => s
  | .verbatim p => p

/-- One element of a message `content` array. -/
inductive Block where
  | text (t : String)
  | tool_use (id name : String) (input : ToolInput)
  | tool_result (tool_use_id : String) (content : RContent)
  | otherBlock
deriving DecidableEq, Repr

/-- The `message.content` field: an array of blocks, a bare string, or
absent/unusable (missing message, missing content). -/
inductive MsgContent where
  | blocks (bs : List Block)
  | strContent (s : String)
  | absent
deriving DecidableEq, Repr

/-- A parsed agent stream record, as far as the translator inspects it. -/
inductive AgentEvent where
  | system (subtype : String) (model : Option String)
      (tools : Option (List String)) (cwd : Option String)
  | result (is_error : Bool) (res : Option String)
      (num_turns : Option Nat) (total_cost_usd : Option Rat)
  | assistant (content : MsgContent)
  | user (content : MsgContent)
  | otherKind (tag : String)
deriving DecidableEq, Repr

/-- The tool-specific payload of an `fe_tool_call` event. -/
inductive ToolPayload where
  | write (filePath content : Option String) (description : String)
  | edit (filePath oldString newString : Option String) (description : String)
  | read (filePath : Option String) (description : String)
  | bash (command : Option String) (description : Option String)
  | glob (pattern : Option String) (description : String)
  | grep (pattern path : Option String) (description : String)
  | task (subagentType taskDescription prompt : Option String) (description : String)
  | generic (tool : String) (input : ToolInput) (description : String)
deriving DecidableEq, Repr

/-- A broadcast event (one `broadcast({...})` call). -/
inductive Ev where
  | session_start (sessionId prompt cwd : String)
  | session_end (sessionId : String) (exitCode : Option Int)
  | agent_event (sessionId : String) (event : AgentEvent)
  | raw_output (sessionId text : String)
  | stderrText (sessionId text : String)
  | fe_init (sessionId : String) (model : Option String)
      (tools : Option (List String)) (cwd : String)
  | fe_result (sessionId : String) (success : Bool) (res : Option String)
      (numTurns : Option Nat) (costUsd : Option Rat)
  | fe_assistant_text (sessionId text : String)
  | fe_tool_call (sessionId toolCallId : String) (payload : ToolPayload)
  | fe_tool_result (sessionId toolCallId output : String)
  | fe_file_changed (sessionId : String) (filePath : Option String) (action : String)
deriving DecidableEq, Repr

/-- `relativePath(filePath, workDir)` from the source: falsy guard first,
then strip `workDir` plus one separator character when it is a prefix. -/
def relativePath (filePath : Option String) (workDir : String) : String :=
  match filePath with
  | none => ""
  | some fp =>
      if fp = "" then ""
      else if workDir = "" then fp
      else if fp.data.take workDir.data.length = workDir.data then
        String.mk (fp.data.drop (workDir.data.length + 1))
      else fp

/-- `translateToolUse(block, workDir, fileChanges)`: per-tool-name dispatch
producing the `fe_tool_call` payload; `Write`/`Edit` additionally register a
pending descriptor in the correlation map.  The updated map is returned. -/
def translateToolUse (id name : String) (input : ToolInput) (workDir : String)
    (fileChanges : CorrMap) : ToolPayload × CorrMap :=
  if name = "Write" then
    (.write input.file_path input.content
        ("Create " ++ relativePath input.file_path workDir),
     aset fileChanges id ⟨input.file_path, "write"⟩)
  else if name = "Edit" then
    (.edit input.file_path input.old_string input.new_string
        ("Edit " ++ relativePath input.file_path workDir),
     aset fileChanges id ⟨input.file_path, "edit"⟩)
  else if name = "Read" then
    (.read input.file_path ("Read " ++ relativePath input.file_path workDir),
     fileChanges)
  else if name = "Bash" then
    (.bash input.command (jsOr input.description input.command), fileChanges)
  else if name = "Glob" then
    (.glob input.pattern ("Search for " ++ showOpt input.pattern), fileChanges)
  else if name = "Grep" then
    (.grep input.pattern input.path ("Grep /" ++ showOpt input.pattern ++ "/"),
     fileChanges)
  else if name = "Task" then
    (.task input.subagent_type input.description input.prompt
        ("[" ++ showOpt input.subagent_type ++ "] " ++ jsOrEmpty input.description),
     fileChanges)
  else
    (.generic name.toLower input (name ++ " call"), fileChanges)

/-- The `assistant` branch of `translateEvent`: one event per `text` block
with truthy text, one `fe_tool_call` per `tool_use` block (updating the
correlation map); other block kinds are skipped. -/
def translateBlocksA (sessionId workDir : String) :
    List Block → CorrMap → List Ev × CorrMap
  | [], m => ([], m)
  | .text t :: bs, m =>
      (if t = "" then (translateBlocksA sessionId workDir bs m).1
       else .fe_assistant_text sessionId t :: (translateBlocksA sessionId workDir bs m).1,
       (translateBlocksA sessionId workDir bs m).2)
  | .tool_use id name input :: bs, m =>
      (.fe_tool_call sessionId id (translateToolUse id name input workDir m).1 ::
         (translateBlocksA sessionId workDir bs (translateToolUse id name input workDir m).2).1,
       (translateBlocksA sessionId workDir bs (translateToolUse id name input workDir m).2).2)
  | _ :: bs, m => translateBlocksA sessionId workDir bs m

/-- The `user` branch of `translateEvent`: each `tool_result` block yields
`fe_tool_result`, plus `fe_file_changed` when the correlation map holds a
descriptor for its id.  The source never deletes from the map here. -/
def translateBlocksU (sessionId : String) (m : CorrMap) : List Block → List Ev
  | [] => []
  | .tool_result tid c :: bs =>
      match aget m tid with
      | some ch =>
          .fe_tool_result sessionId tid c.textOf ::
            .fe_file_changed sessionId ch.filePath ch.action ::
              translateBlocksU sessionId m bs
      | none => .fe_tool_result sessionId tid c.textOf :: translateBlocksU sessionId m bs
  | _ :: bs => translateBlocksU sessionId m bs

/-- `translateEvent(sessionId, event, workDir, fileChanges)`: dispatch on the
record kind; returns the emitted events and the updated correlation map. -/
def translateEvent (sessionId : String) (event : AgentEvent) (workDir : String)
    (fileChanges : CorrMap) : List Ev × CorrMap :=
  match event with
  | .system subtype model tools cwd =>
      (if subtype = "init" then [.fe_init sessionId model tools (jsOrS cwd workDir)]
       else [],
       fileChanges)
  | .result is_error res nt cost =>
      ([.fe_result sessionId (!is_error) res nt cost], fileChanges)
  | .assistant (.blocks bs) => translateBlocksA sessionId workDir bs fileChanges
  | .assistant _ => ([], fileChanges)
  | .user (.blocks bs) => (translateBlocksU sessionId fileChanges bs, fileChanges)
  | .user _ => ([], fileChanges)
  | .otherKind _ => ([], fileChanges)

/-- The guard `!line.trim()`: the line trims to the empty string exactly
when every character is whitespace. -/
def trimEmpty (line : String) : Bool :=
  line.data.all Char.isWhitespace

/-- The body of the stdout handler for one decoded line: blank lines are
skipped, parse failure downgrades to `raw_output`, success broadcasts the
`agent_event` passthrough then the translated events. -/
def processLine (parse : String → Option AgentEvent) (sessionId workDir : String)
    (m : CorrMap) (line : String) : List Ev × CorrMap :=
  if trimEmpty line then ([], m)
  else
    match parse line with
    | some e =>
        (.agent_event sessionId e :: (translateEvent sessionId e workDir m).1,
         (translateEvent sessionId e workDir m).2)
    | none => ([.raw_output sessionId line], m)

/-- Processing a list of decoded lines in order, threading the map. -/
def processLines (parse : String → Option AgentEvent) (sessionId workDir : String) :
    List String → CorrMap → List Ev × CorrMap
  | [], m => ([], m)
  | l :: ls, m =>
      ((processLine parse sessionId workDir m l).1
         ++ (processLines parse sessionId workDir ls
              (processLine parse sessionId workDir m l).2).1,
       (processLines parse sessionId workDir ls
         (processLine parse sessionId workDir m l).2).2)

/-- `String.split("\n")` on a character list: left-to-right split at every
newline; the result is never empty and its parts contain no newline. -/
def splitNl : List Char → List (List Char)
  | [] => [[]]
  | c :: cs =>
      if c = '\n' then [] :: splitNl cs
      else
        match splitNl cs with
        | [] => [[c]]
        | l :: ls => (c :: l) :: ls

/-- Joining split parts back with newline separators. -/
def joinNl : List (List Char) → List Char
  | [] => []
  | [l] => l
  | l :: ls => l ++ '\n' :: joinNl ls

/-- One `data` callback of the decoder: append the chunk to the remainder,
split on newlines, yield every complete line, keep the last segment. -/
def decodeStep (buffer chunk : List Char) : List (List Char) × List Char :=
  ((splitNl (buffer ++ chunk)).dropLast, (splitNl (buffer ++ chunk)).getLastD [])

/-- Folding the decoder over a chunk sequence, accumulating yielded frames
in arrival order; `fs` are frames already yielded and `buf` the remainder. -/
def decodeFrom (fs : List (List Char)) (buf : List Char) :
    List (List Char) → List (List Char) × List Char
  | [] => (fs, buf)
  | c :: cs => decodeFrom (fs ++ (decodeStep buf c).1) (decodeStep buf c).2 cs

/-- The decoder run from the initial empty state (`let buffer = ""`). -/
def decodeAll (chunks : List (List Char)) : List (List Char) × List Char :=
  decodeFrom [] [] chunks

/-- Registry entry for one session (the fields the control surface reads). -/
structure Session where
  prompt : String
  cwd : String
deriving DecidableEq, Repr

/-- The `sessions` JS `Map`. -/
abbrev Registry := List (String × Session)

/-- The side effects on the subprocess the control surface requests. -/
inductive Eff where
  | spawnProc (sessionId cwd : String) (args : List String)
  | sigterm (sessionId : String)
deriving DecidableEq, Repr

/-- Control-surface errors. -/
inductive ApiError where
  | invalidArgument
  | notFound
deriving DecidableEq, Repr

/-- The fixed argument vector passed to the agent binary. -/
def agentArgs (prompt : String) : List String :=
  ["--output-format", "stream-json", "--verbose", "-p", prompt]

/-- `POST /api/session`: reject a falsy prompt with 400 before any effect;
otherwise spawn, register the session, and emit `session_start`.  Returns
the updated registry, broadcast events, subprocess effects, and result. -/
def createSession (reg : Registry) (prompt cwd : Option String)
    (projectDir newSid : String) :
    Registry × List Ev × List Eff × Except ApiError String :=
  match prompt with
  | none => (reg, [], [], .error .invalidArgument)
  | some p =>
      if p = "" then (reg, [], [], .error .invalidArgument)
      else
        let workDir := jsOrS cwd projectDir
        (aset reg newSid ⟨p, workDir⟩,
         [.session_start newSid p workDir],
         [.spawnProc newSid workDir (agentArgs p)],
         .ok newSid)

/-- `DELETE /api/session/:id`: 404 when unknown; otherwise send SIGTERM and
acknowledge immediately.  The registry is never modified here. -/
def terminateSession (reg : Registry) (sid : String) :
    Registry × List Eff × Except ApiError Unit :=
  match aget reg sid with
  | none => (reg, [], .error .notFound)
  | some _ => (reg, [.sigterm sid], .ok ())

/-- The subprocess `close` handler: deregister and emit `session_end` with
the real exit status. -/
def handleClose (reg : Registry) (sid : String) (exitCode : Option Int) :
    Registry × List Ev :=
  (adel reg sid, [.session_end sid exitCode])

/-- The full broadcast trace of one session's stdout lifecycle:
`session_start` at spawn, then the per-line processing of every decoded
frame in decode order, then `session_end` from the `close` handler. -/
def runSession (parse : String → Option AgentEvent) (sessionId prompt workDir : String)
    (chunks : List (List Char)) (exitCode : Option Int) : List Ev :=
  Ev.session_start sessionId prompt workDir ::
    (processLines parse sessionId workDir
        ((decodeAll chunks).1.map String.mk) []).1
      ++ [Ev.session_end sessionId exitCode]

/-- Whether an event is a lifecycle (start/end) event. -/
def Ev.isLifecycle : Ev → Bool
  | .session_start _ _ _ => true
  | .session_end _ _ => true
  | _ => false

/-! ### Frame decoder lemmas -/

theorem splitNl_ne_nil (s : List Char) : splitNl s ≠ [] := by
  cases s with
  | nil => simp [splitNl]
  | cons c cs =>
    rw [splitNl]
    split
    · simp
    · split <;> simp

theorem joinNl_cons_cons (a b : List Char) (t : List (List Char)) :
    joinNl (a :: b :: t) = a ++ '\n' :: joinNl (b :: t) := rfl

theorem joinNl_cons_char (c : Char) (x : List Char) (xs : List (List Char)) :
    joinNl ((c :: x) :: xs) = c :: joinNl (x :: xs) := by
  cases xs with
  | nil => rfl
  | cons y ys => simp [joinNl_cons_cons]

theorem joinNl_splitNl (s : List Char) : joinNl (splitNl s) = s := by
  induction s with
  | nil => rfl
  | cons c cs ih =>
    rw [splitNl]
    obtain ⟨x, xs, hx⟩ := List.exists_cons_of_ne_nil (splitNl_ne_nil cs)
    rw [hx] at ih
    by_cases hc : c = '\n'
    · rw [if_pos hc, hx, joinNl_cons_cons, hc]
      simp [ih]
    · rw [if_neg hc, hx]
      show joinNl ((c :: x) :: xs) = c :: cs
      rw [joinNl_cons_char, ih]

theorem splitNl_no_nl (s : List Char) : ∀ l ∈ splitNl s, '\n' ∉ l := by
  induction s with
  | nil =>
    intro l hl
    simp [splitNl] at hl
    simp [hl]
  | cons c cs ih =>
    intro l hl
    rw [splitNl] at hl
    obtain ⟨x, xs, hx⟩ := List.exists_cons_of_ne_nil (splitNl_ne_nil cs)
    by_cases hc : c = '\n'
    · rw [if_pos hc] at hl
      rcases List.mem_cons.mp hl with h | h
      · simp [h]
      · exact ih l h
    · rw [if_neg hc, hx] at hl
      have hx1 : x ∈ splitNl cs := by rw [hx]; exact List.mem_cons_self x xs
      change l ∈ (c :: x) :: xs at hl
      rcases List.mem_cons.mp hl with h | h
      · subst h
        intro hmem
        rcases List.mem_cons.mp hmem with h2 | h2
        · exact hc h2.symm
        · exact ih x hx1 h2
      · exact ih l (by rw [hx]; exact List.mem_cons_of_mem x h)

theorem getLastD_mem {α : Type} (l : List α) (d : α) (h : l ≠ []) :
    l.getLastD d ∈ l := by
  cases l with
  | nil => exact absurd rfl h
  | cons a t =>
    rw [List.getLastD_eq_getLast?, List.getLast?_eq_getLast _ (List.cons_ne_nil a t)]
    exact List.getLast_mem _

theorem splitNl_getLastD_no_nl (s : List Char) : '\n' ∉ (splitNl s).getLastD [] :=
  splitNl_no_nl s _ (getLastD_mem _ _ (splitNl_ne_nil s))

theorem splitNl_of_no_nl (s : List Char) (h : '\n' ∉ s) : splitNl s = [s] := by
  induction s with
  | nil => rfl
  | cons c cs ih =>
    rw [splitNl]
    have hc : c ≠ '\n' := fun he => h (he ▸ List.mem_cons_self c cs)
    rw [if_neg hc, ih (fun hm => h (List.mem_cons_of_mem c hm))]

theorem frames_getLastD (ps : List (List Char)) (h : ps ≠ []) :
    ((ps.dropLast).map (fun l => l ++ ['\n'])).flatten ++ ps.getLastD [] = joinNl ps := by
  induction ps with
  | nil => exact absurd rfl h
  | cons x t ih =>
    cases t with
    | nil => simp [joinNl]
    | cons y t2 =>
      have h2 := ih (List.cons_ne_nil y t2)
      rw [joinNl_cons_cons, ← h2]
      simp [List.dropLast_cons₂]

theorem decodeStep_spec (buffer chunk : List Char) :
    ((decodeStep buffer chunk).1.map (fun l => l ++ ['\n'])).flatten
        ++ (decodeStep buffer chunk).2
      = buffer ++ chunk := by
  unfold decodeStep
  rw [frames_getLastD _ (splitNl_ne_nil _), joinNl_splitNl]

theorem decodeStep_spec' (buffer chunk X : List Char) :
    ((decodeStep buffer chunk).1.map (fun l => l ++ ['\n'])).flatten
        ++ ((decodeStep buffer chunk).2 ++ X)
      = buffer ++ (chunk ++ X) := by
  rw [← List.append_assoc, decodeStep_spec, List.append_assoc]

theorem decodeFrom_spec (chunks : List (List Char)) : ∀ fs buf,
    ((decodeFrom fs buf chunks).1.map (fun l => l ++ ['\n'])).flatten
        ++ (decodeFrom fs buf chunks).2
      = (fs.map (fun l => l ++ ['\n'])).flatten ++ (buf ++ chunks.flatten) := by
  induction chunks with
  | nil => intro fs buf; simp [decodeFrom]
  | cons c cs ih =>
    intro fs buf
    rw [decodeFrom, ih]
    simp only [List.map_append, List.flatten_append, List.flatten_cons, List.append_assoc]
    rw [decodeStep_spec']

theorem decodeFrom_extend (chunks : List (List Char)) : ∀ fs buf,
    ∃ t, (decodeFrom fs buf chunks).1 = fs ++ t := by
  induction chunks with
  | nil => intro fs buf; exact ⟨[], by simp [decodeFrom]⟩
  | cons c cs ih =>
    intro fs buf
    rw [decodeFrom]
    obtain ⟨t, ht⟩ := ih (fs ++ (decodeStep buf c).1) (decodeStep buf c).2
    exact ⟨(decodeStep buf c).1 ++ t, by rw [ht, List.append_assoc]⟩

theorem decodeFrom_append (chunks more : List (List Char)) : ∀ fs buf,
    decodeFrom fs buf (chunks ++ more)
      = decodeFrom (decodeFrom fs buf chunks).1 (decodeFrom fs buf chunks).2 more := by
  induction chunks with
  | nil => intro fs buf; simp [decodeFrom]
  | cons c cs ih =>
    intro fs buf
    rw [List.cons_append, decodeFrom, decodeFrom, ih]

theorem decodeFrom_buf_no_nl (chunks : List (List Char)) : ∀ fs buf,
    '\n' ∉ buf → '\n' ∉ (decodeFrom fs buf chunks).2 := by
  induction chunks with
  | nil => intro fs buf h; simpa [decodeFrom] using h
  | cons c cs ih =>
    intro fs buf _
    rw [decodeFrom]
    exact ih _ _ (splitNl_getLastD_no_nl _)

theorem decodeStep_of_no_nl (buffer chunk : List Char) (h : '\n' ∉ buffer ++ chunk) :
    decodeStep buffer chunk = ([], buffer ++ chunk) := by
  unfold decodeStep
  rw [splitNl_of_no_nl _ h]
  rfl

/-! ### Association-map lemmas -/

theorem aget_aset_self {α : Type} (m : List (String × α)) (k : String) (v : α) :
    aget (aset m k v) k = some v := by
  induction m with
  | nil => simp [aset, aget]
  | cons p rest ih =>
    obtain ⟨k', w⟩ := p
    by_cases h : k' = k
    · simp [aset, aget, h]
    · simp [aset, aget, h, ih]

theorem aget_mem {α : Type} (m : List (String × α)) (k : String) (v : α)
    (h : aget m k = some v) : (k, v) ∈ m := by
  induction m with
  | nil => simp [aget] at h
  | cons p rest ih =>
    obtain ⟨k', w⟩ := p
    by_cases hk : k' = k
    · rw [aget, if_pos hk] at h
      injection h with h2
      subst h2
      subst hk
      exact List.mem_cons_self _ _
    · rw [aget, if_neg hk] at h
      exact List.mem_cons_of_mem _ (ih h)

theorem aget_eq_none {α : Type} (m : List (String × α)) (k : String)
    (h : k ∉ m.map Prod.fst) : aget m k = none := by
  induction m with
  | nil => rfl
  | cons p rest ih =>
    obtain ⟨k', w⟩ := p
    simp only [List.map_cons, List.mem_cons] at h
    push_neg at h
    rw [aget, if_neg (fun he => h.1 he.symm)]
    exact ih h.2

theorem aget_adel_self {α : Type} (m : List (String × α)) (k : String)
    (hnd : (m.map Prod.fst).Nodup) : aget (adel m k) k = none := by
  induction m with
  | nil => rfl
  | cons p rest ih =>
    obtain ⟨k', w⟩ := p
    simp only [List.map_cons, List.nodup_cons] at hnd
    by_cases hk : k' = k
    · rw [adel, if_pos hk]
      exact aget_eq_none rest k (hk ▸ hnd.1)
    · rw [adel, if_neg hk, aget, if_neg hk]
      exact ih hnd.2

/-! ### Translator structure lemmas -/

/-- Whether an event is a subprocess-derived `fe_file_changed`. -/
def Ev.isFileChanged : Ev → Bool
  | .fe_file_changed _ _ _ => true
  | _ => false

/-- Every descriptor in the map records a `write` or `edit` action. -/
def goodMap (m : CorrMap) : Prop :=
  ∀ kv ∈ m, kv.2.action = "write" ∨ kv.2.action = "edit"

theorem translateToolUse_map (id name : String) (input : ToolInput) (wd : String)
    (m : CorrMap) :
    (translateToolUse id name input wd m).2
      = if name = "Write" then aset m id ⟨input.file_path, "write"⟩
        else if name = "Edit" then aset m id ⟨input.file_path, "edit"⟩
        else m := by
  unfold translateToolUse
  by_cases h1 : name = "Write"
  · simp [h1]
  · by_cases h2 : name = "Edit"
    · simp [h1, h2]
    · simp only [h1, h2, if_false]
      split_ifs <;> rfl

theorem goodMap_aset (m : CorrMap) (k : String) (v : FileChange)
    (hm : goodMap m) (hv : v.action = "write" ∨ v.action = "edit") :
    goodMap (aset m k v) := by
  induction m with
  | nil =>
    intro kv hkv
    simp [aset] at hkv
    subst hkv
    exact hv
  | cons p rest ih =>
    intro kv hkv
    obtain ⟨k', w⟩ := p
    rw [aset] at hkv
    by_cases hk : k' = k
    · rw [if_pos hk] at hkv
      rcases List.mem_cons.mp hkv with h | h
      · subst h; exact hv
      · exact hm _ (List.mem_cons_of_mem _ h)
    · rw [if_neg hk] at hkv
      rcases List.mem_cons.mp hkv with h | h
      · subst h; exact hm _ (List.mem_cons_self _ _)
      · exact ih (fun kv2 hkv2 => hm kv2 (List.mem_cons_of_mem _ hkv2)) kv h

theorem goodMap_translateToolUse (id name : String) (input : ToolInput) (wd : String)
    (m : CorrMap) (hm : goodMap m) :
    goodMap (translateToolUse id name input wd m).2 := by
  rw [translateToolUse_map]
  split_ifs
  · exact goodMap_aset m id _ hm (Or.inl rfl)
  · exact goodMap_aset m id _ hm (Or.inr rfl)
  · exact hm

theorem translateBlocksA_events (sid wd : String) (bs : List Block) : ∀ m : CorrMap,
    (∀ e ∈ (translateBlocksA sid wd bs m).1,
        e.isLifecycle = false ∧ e.isFileChanged = false)
    ∧ (goodMap m → goodMap (translateBlocksA sid wd bs m).2) := by
  induction bs with
  | nil =>
    intro m
    refine ⟨fun e he => ?_, fun h => ?_⟩
    · simp [translateBlocksA] at he
    · simpa [translateBlocksA] using h
  | cons b bs ih =>
    intro m
    cases b with
    | text t =>
      refine ⟨fun e he => ?_, fun h => ?_⟩
      · simp only [translateBlocksA] at he
        by_cases ht : t = ""
        · rw [if_pos ht] at he
          exact (ih m).1 e he
        · rw [if_neg ht] at he
          rcases List.mem_cons.mp he with h | h
          · subst h; exact ⟨rfl, rfl⟩
          · exact (ih m).1 e h
      · simp only [translateBlocksA]
        exact (ih m).2 h
    | tool_use id name input =>
      refine ⟨fun e he => ?_, fun h => ?_⟩
      · simp only [translateBlocksA] at he
        rcases List.mem_cons.mp he with h | h
        · subst h; exact ⟨rfl, rfl⟩
        · exact (ih _).1 e h
      · simp only [translateBlocksA]
        exact (ih _).2 (goodMap_translateToolUse _ _ _ _ _ h)
    | tool_result tid c =>
      simpa only [translateBlocksA] using ih m
    | otherBlock =>
      simpa only [translateBlocksA] using ih m

theorem translateBlocksU_events (sid : String) (m : CorrMap) (bs : List Block) :
    ∀ e ∈ translateBlocksU sid m bs,
      e.isLifecycle = false
      ∧ ∀ s' fp a, e = Ev.fe_file_changed s' fp a →
          s' = sid ∧ ∃ tid, aget m tid = some ⟨fp, a⟩ := by
  induction bs with
  | nil => intro e he; simp [translateBlocksU] at he
  | cons b bs ih =>
    intro e he
    cases b with
    | tool_result tid c =>
      simp only [translateBlocksU] at he
      cases hg : aget m tid with
      | some ch =>
        rw [hg] at he
        rcases List.mem_cons.mp he with h | h
        · subst h
          exact ⟨rfl, fun s' fp a hh => by cases hh⟩
        · rcases List.mem_cons.mp h with h2 | h2
          · subst h2
            refine ⟨rfl, fun s' fp a hh => ?_⟩
            cases hh
            exact ⟨rfl, tid, hg⟩
          · exact ih e h2
      | none =>
        rw [hg] at he
        rcases List.mem_cons.mp he with h | h
        · subst h
          exact ⟨rfl, fun s' fp a hh => by cases hh⟩
        · exact ih e h
    | text t =>
      simp only [translateBlocksU] at he
      exact ih e he
    | tool_use id name input =>
      simp only [translateBlocksU] at he
      exact ih e he
    | otherBlock =>
      simp only [translateBlocksU] at he
      exact ih e he

theorem translateEvent_events (sid : String) (ev : AgentEvent) (wd : String) (m : CorrMap) :
    (∀ e ∈ (translateEvent sid ev wd m).1, e.isLifecycle = false)
    ∧ (goodMap m → goodMap (translateEvent sid ev wd m).2)
    ∧ (∀ s' fp a, Ev.fe_file_changed s' fp a ∈ (translateEvent sid ev wd m).1 →
        ∃ tid, aget m tid = some ⟨fp, a⟩) := by
  cases ev with
  | system st mo tl cw =>
    refine ⟨fun e he => ?_, fun h => ?_, fun s' fp a hmem => ?_⟩
    · simp only [translateEvent] at he
      by_cases h : st = "init"
      · rw [if_pos h] at he
        simp only [List.mem_singleton] at he
        subst he; rfl
      · rw [if_neg h] at he
        simp at he
    · simpa only [translateEvent] using h
    · simp only [translateEvent] at hmem
      by_cases h : st = "init"
      · rw [if_pos h] at hmem
        simp at hmem
      · rw [if_neg h] at hmem
        simp at hmem
  | result ie r nt c =>
    refine ⟨fun e he => ?_, fun h => ?_, fun s' fp a hmem => ?_⟩
    · simp only [translateEvent, List.mem_singleton] at he
      subst he; rfl
    · simpa only [translateEvent] using h
    · simp [translateEvent] at hmem
  | assistant mc =>
    cases mc with
    | blocks bs =>
      refine ⟨fun e he => ?_, fun h => ?_, fun s' fp a hmem => ?_⟩
      · exact ((translateBlocksA_events sid wd bs m).1 e he).1
      · exact (translateBlocksA_events sid wd bs m).2 h
      · have := ((translateBlocksA_events sid wd bs m).1 _ hmem).2
        simp [Ev.isFileChanged] at this
    | strContent s =>
      refine ⟨fun e he => ?_, fun h => ?_, fun s' fp a hmem => ?_⟩
      · simp [translateEvent] at he
      · simpa only [translateEvent] using h
      · simp [translateEvent] at hmem
    | absent =>
      refine ⟨fun e he => ?_, fun h => ?_, fun s' fp a hmem => ?_⟩
      · simp [translateEvent] at he
      · simpa only [translateEvent] using h
      · simp [translateEvent] at hmem
  | user mc =>
    cases mc with
    | blocks bs =>
      refine ⟨fun e he => ?_, fun h => ?_, fun s' fp a hmem => ?_⟩
      · exact (translateBlocksU_events sid m bs e he).1
      · simpa only [translateEvent] using h
      · exact ((translateBlocksU_events sid m bs _ hmem).2 s' fp a rfl).2
    | strContent s =>
      refine ⟨fun e he => ?_, fun h => ?_, fun s' fp a hmem => ?_⟩
      · simp [translateEvent] at he
      · simpa only [translateEvent] using h
      · simp [translateEvent] at hmem
    | absent =>
      refine ⟨fun e he => ?_, fun h => ?_, fun s' fp a hmem => ?_⟩
      · simp [translateEvent] at he
      · simpa only [translateEvent] using h
      · simp [translateEvent] at hmem
  | otherKind tag =>
    refine ⟨fun e he => ?_, fun h => ?_, fun s' fp a hmem => ?_⟩
    · simp [translateEvent] at he
    · simpa only [translateEvent] using h
    · simp [translateEvent] at hmem

theorem processLine_events (parse : String → Option AgentEvent) (sid wd : String)
    (m : CorrMap) (line : String) :
    ∀ e ∈ (processLine parse sid wd m line).1, e.isLifecycle = false := by
  intro e he
  unfold processLine at he
  by_cases hb : trimEmpty line
  · rw [if_pos hb] at he
    simp at he
  · rw [if_neg hb] at he
    cases hp : parse line with
    | some ev =>
      rw [hp] at he
      rcases List.mem_cons.mp he with h | h
      · subst h; rfl
      · exact (translateEvent_events sid ev wd m).1 e h
    | none =>
      rw [hp] at he
      simp only [List.mem_singleton] at he
      subst he; rfl

theorem processLines_events (parse : String → Option AgentEvent) (sid wd : String)
    (ls : List String) : ∀ m : CorrMap,
    ∀ e ∈ (processLines parse sid wd ls m).1, e.isLifecycle = false := by
  induction ls with
  | nil => intro m e he; simp [processLines] at he
  | cons l ls ih =>
    intro m e he
    simp only [processLines, List.mem_append] at he
    rcases he with h | h
    · exact processLine_events parse sid wd m l e h
    · exact ih _ e h

theorem processLines_append (parse : String → Option AgentEvent) (sid wd : String)
    (ls1 ls2 : List String) : ∀ m : CorrMap,
    processLines parse sid wd (ls1 ++ ls2) m
      = ((processLines parse sid wd ls1 m).1
           ++ (processLines parse sid wd ls2 (processLines parse sid wd ls1 m).2).1,
         (processLines parse sid wd ls2 (processLines parse sid wd ls1 m).2).2) := by
  induction ls1 with
  | nil => intro m; simp [processLines]
  | cons l ls ih =>
    intro m
    simp only [List.cons_append, processLines, List.append_eq, ih, List.append_assoc]

/-! ### Concrete scenario (the spec's section 8 injection test) -/

/-- The tool input of the scenario's `Write` invocation. -/
def writeInput : ToolInput :=
  ⟨some "/w/a.txt", some "hi", none, none, none, none, none, none, none, none⟩

/-- The scenario's assistant frame carrying the `Write` invocation `x1`. -/
def writeFrame : AgentEvent :=
  .assistant (.blocks [.tool_use "x1" "Write" writeInput])

/-- The scenario's user frame carrying the matching tool result for `x1`. -/
def resultFrame : AgentEvent :=
  .user (.blocks [.tool_result "x1" (.str "ok")])

/-- The correlation map after the `Write` invocation was translated. -/
def pendingMap : CorrMap := [("x1", ⟨some "/w/a.txt", "write"⟩)]

/-- C1 counterexample: after the matching result frame is translated the
descriptor for `x1` is still present (the source never deletes it), and a
second identical result frame emits `fe_file_changed` again. -/
theorem C1_counterexample :
    (translateEvent "s" resultFrame "/w" pendingMap).2 = pendingMap
    ∧ aget (translateEvent "s" resultFrame "/w" pendingMap).2 "x1"
        = some ⟨some "/w/a.txt", "write"⟩
    ∧ Ev.fe_file_changed "s" (some "/w/a.txt") "write"
        ∈ (translateEvent "s" resultFrame "/w"
            (translateEvent "s" resultFrame "/w" pendingMap).2).1 := by
  decide

/-- C1 (amended): a tool-result frame whose invocation identifier has a
pending descriptor emits exactly one `fe_file_changed` naming the
descriptor's path and action — but the descriptor is not removed: the map
comes back unchanged, and a second result frame bearing the same identifier
produces the same events again. -/
theorem C1_result_frame (sid wd tid : String) (c : RContent) (m : CorrMap)
    (ch : FileChange) (h : aget m tid = some ch) :
    translateEvent sid (.user (.blocks [.tool_result tid c])) wd m
      = ([.fe_tool_result sid tid c.textOf,
          .fe_file_changed sid ch.filePath ch.action], m)
    ∧ translateEvent sid (.user (.blocks [.tool_result tid c])) wd
        (translateEvent sid (.user (.blocks [.tool_result tid c])) wd m).2
      = ([.fe_tool_result sid tid c.textOf,
          .fe_file_changed sid ch.filePath ch.action], m) := by
  have h1 : translateEvent sid (.user (.blocks [.tool_result tid c])) wd m
      = ([.fe_tool_result sid tid c.textOf,
          .fe_file_changed sid ch.filePath ch.action], m) := by
    simp [translateEvent, translateBlocksU, h]
  refine ⟨h1, ?_⟩
  have h2 : (translateEvent sid (.user (.blocks [.tool_result tid c])) wd m).2 = m := by
    rw [h1]
  rw [h2, h1]

/-- Witness for C1's amended theorem at the section-8 scenario input. -/
theorem C1_result_frame_witness :
    translateEvent "s" resultFrame "/w" pendingMap
      = ([.fe_tool_result "s" "x1" "ok",
          .fe_file_changed "s" (some "/w/a.txt") "write"], pendingMap) :=
  (C1_result_frame "s" "/w" "x1" (.str "ok") pendingMap
    ⟨some "/w/a.txt", "write"⟩ (by decide)).1

/-- C2 counterexample: in the section-8 scenario (working directory `/w`,
`Write` of `/w/a.txt`) the broadcast `fe_tool_call` and `fe_file_changed`
carry `filePath` `/w/a.txt` — the absolute input path, not the relative
`a.txt` the claim requires; only the description string is relativized. -/
theorem C2_counterexample :
    (translateEvent "s" writeFrame "/w" []).1
      = [.fe_tool_call "s" "x1"
          (.write (some "/w/a.txt") (some "hi") "Create a.txt")]
    ∧ (translateEvent "s" resultFrame "/w" (translateEvent "s" writeFrame "/w" []).2).1
      = [.fe_tool_result "s" "x1" "ok",
         .fe_file_changed "s" (some "/w/a.txt") "write"]
    ∧ (some "/w/a.txt" : Option String) ≠ some "a.txt" := by
  refine ⟨?_, ?_, ?_⟩ <;> decide

/-- A string is empty exactly when its character list is. -/
theorem string_eq_empty_iff (s : String) : s = "" ↔ s.data = [] := by
  rw [String.ext_iff]

/-- C2 (amended): the `filePath` field of the `fe_tool_call` payload and the
registered descriptor carry the tool input's path verbatim; only the
human-readable description is relativized, stripping `workDir` plus the
separator when the path extends it, and leaving other paths unchanged. -/
theorem C2_path_normalization (id wd r fq : String) (input : ToolInput) (m : CorrMap)
    (fp : String) (hfp : input.file_path = some fp) (hwd : wd ≠ "")
    (hr : fp = wd ++ "/" ++ r) (hq1 : fq ≠ "")
    (hq2 : fq.data.take wd.data.length ≠ wd.data) :
    (translateToolUse id "Write" input wd m).1
      = .write (some fp) input.content ("Create " ++ r)
    ∧ aget (translateToolUse id "Write" input wd m).2 id = some ⟨some fp, "write"⟩
    ∧ relativePath (some fp) wd = r
    ∧ relativePath (some fq) wd = fq := by
  have hslash : ("/" : String).data = ['/'] := rfl
  have hdata : fp.data = (wd.data ++ ['/']) ++ r.data := by
    rw [hr, String.data_append, String.data_append, hslash]
  have hfpne : fp ≠ "" := by
    intro he
    rw [string_eq_empty_iff] at he
    rw [he] at hdata
    simp at hdata
  have htake : fp.data.take wd.data.length = wd.data := by
    rw [hdata, List.append_assoc]
    exact List.take_left _ _
  have hdrop : fp.data.drop (wd.data.length + 1) = r.data := by
    rw [hdata]
    have hlen : (wd.data ++ ['/']).length = wd.data.length + 1 := by simp
    rw [← hlen]
    exact List.drop_left _ _
  have hrel : relativePath (some fp) wd = r := by
    simp only [relativePath]
    rw [if_neg hfpne, if_neg hwd, if_pos htake, hdrop]
  have hrel2 : relativePath (some fq) wd = fq := by
    simp only [relativePath]
    rw [if_neg hq1, if_neg hwd, if_neg hq2]
  refine ⟨?_, ?_, hrel, hrel2⟩
  · simp [translateToolUse, hfp, hrel]
  · rw [translateToolUse_map, if_pos rfl, hfp]
    exact aget_aset_self m id _

/-- Witness for C2's amended theorem at the section-8 scenario input. -/
theorem C2_path_normalization_witness :
    (translateToolUse "x1" "Write" writeInput "/w" []).1
      = .write (some "/w/a.txt") (some "hi") "Create a.txt"
    ∧ relativePath (some "/other/b") "/w" = "/other/b" := by
  have h := C2_path_normalization "x1" "/w" "a.txt" "/other/b" writeInput []
    "/w/a.txt" rfl (by decide) (by decide) (by decide) (by decide)
  exact ⟨by simpa using h.1, h.2.2.2⟩

/-- The parse function modelling `JSON.parse` failing on every line. -/
def parseNone : String → Option AgentEvent := fun _ => none

/-- C4 counterexample: a whitespace-only decoded frame fails to parse, yet
the handler skips it before parsing (`if (!line.trim()) continue`): no
`raw_output` event is emitted for it, so such a frame IS dropped. -/
theorem C4_counterexample :
    processLine parseNone "s" "/w" [] " " = ([], [])
    ∧ Ev.raw_output "s" " " ∉ (processLine parseNone "s" "/w" [] " ").1 := by
  refine ⟨?_, ?_⟩ <;> decide

/-- C4 (amended): every decoded frame that is not whitespace-only and fails
to parse yields exactly one `raw_output` carrying it verbatim, and a
malformed frame never affects the processing of subsequent frames. -/
theorem C4_malformed_line (parse : String → Option AgentEvent) (sid wd line : String)
    (m : CorrMap) (ls : List String)
    (h1 : trimEmpty line = false) (h2 : parse line = none) :
    processLine parse sid wd m line = ([.raw_output sid line], m)
    ∧ processLines parse sid wd (line :: ls) m
        = (.raw_output sid line :: (processLines parse sid wd ls m).1,
           (processLines parse sid wd ls m).2) := by
  have hpl : processLine parse sid wd m line = ([.raw_output sid line], m) := by
    simp [processLine, h1, h2]
  refine ⟨hpl, ?_⟩
  simp [processLines, hpl]

/-- Witness for C4's amended theorem on a concrete malformed line. -/
theorem C4_malformed_line_witness :
    processLine parseNone "s" "/w" [] "oops" = ([.raw_output "s" "oops"], []) :=
  (C4_malformed_line parseNone "s" "/w" "oops" [] [] (by decide) rfl).1

/-- C9: a parsed `user` frame whose message content is a bare string yields
only the `agent_event` passthrough — no translated event, and the
correlation map is unchanged (likewise for absent content). -/
theorem C9_user_nonarray (parse : String → Option AgentEvent) (sid wd line x : String)
    (m : CorrMap) (h1 : trimEmpty line = false)
    (h2 : parse line = some (.user (.strContent x))) :
    processLine parse sid wd m line
      = ([.agent_event sid (.user (.strContent x))], m)
    ∧ translateEvent sid (.user (.strContent x)) wd m = ([], m)
    ∧ translateEvent sid (.user .absent) wd m = ([], m) := by
  refine ⟨?_, by simp [translateEvent], by simp [translateEvent]⟩
  simp [processLine, h1, h2, translateEvent]

/-- The parse function returning a fixed non-array user frame. -/
def parseUserStr : String → Option AgentEvent :=
  fun _ => some (.user (.strContent "hello"))

/-- Witness for C9 on a concrete line. -/
theorem C9_user_nonarray_witness :
    processLine parseUserStr "s" "/w" [] "u"
      = ([.agent_event "s" (.user (.strContent "hello"))], []) :=
  (C9_user_nonarray parseUserStr "s" "/w" "u" "hello" [] (by decide) rfl).1

/-- C7: a missing or empty prompt is rejected with `InvalidArgument` before
any effect — registry untouched, nothing broadcast, nothing spawned; a
non-empty prompt spawns, registers the session and returns its id. -/
theorem C7_createSession (reg : Registry) (cwd : Option String) (pd sid p : String)
    (hp : p ≠ "") :
    createSession reg none cwd pd sid = (reg, [], [], .error .invalidArgument)
    ∧ createSession reg (some "") cwd pd sid = (reg, [], [], .error .invalidArgument)
    ∧ createSession reg (some p) cwd pd sid
        = (aset reg sid ⟨p, jsOrS cwd pd⟩,
           [.session_start sid p (jsOrS cwd pd)],
           [.spawnProc sid (jsOrS cwd pd) (agentArgs p)],
           .ok sid)
    ∧ aget (createSession reg (some p) cwd pd sid).1 sid = some ⟨p, jsOrS cwd pd⟩ := by
  refine ⟨rfl, by simp [createSession], ?_, ?_⟩
  · simp [createSession, hp]
  · simp [createSession, hp, aget_aset_self]

/-- Witness for C7 at a concrete prompt. -/
theorem C7_createSession_witness :
    createSession [] (some "hello") none "/proj" "abc"
      = ([("abc", ⟨"hello", "/proj"⟩)],
         [.session_start "abc" "hello" "/proj"],
         [.spawnProc "abc" "/proj" (agentArgs "hello")],
         .ok "abc")
    ∧ createSession [] none none "/proj" "abc"
      = ([], [], [], .error .invalidArgument) := by
  have h := C7_createSession [] none "/proj" "abc" "hello" (by decide)
  exact ⟨by simpa [aset, jsOrS] using h.2.2.1, h.1⟩

/-- C6: terminating never mutates the registry; an unknown id yields
`NotFound` with no signal sent; a known id acknowledges with a SIGTERM and
is idempotent while the session remains registered, which it does — the
session is removed, with `session_end` emitted, only by the close handler. -/
theorem C6_terminateSession (reg : Registry) (sid : String) (s : Session)
    (code : Option Int) :
    (terminateSession reg sid).1 = reg
    ∧ (aget reg sid = none →
        terminateSession reg sid = (reg, [], .error .notFound))
    ∧ (aget reg sid = some s →
        terminateSession reg sid = (reg, [.sigterm sid], .ok ())
        ∧ terminateSession (terminateSession reg sid).1 sid
            = (reg, [.sigterm sid], .ok ())
        ∧ aget (terminateSession reg sid).1 sid = some s)
    ∧ (handleClose reg sid code).2 = [.session_end sid code]
    ∧ ((reg.map Prod.fst).Nodup → aget (handleClose reg sid code).1 sid = none) := by
  refine ⟨?_, ?_, ?_, rfl, ?_⟩
  · cases h : aget reg sid <;> simp [terminateSession, h]
  · intro h; simp [terminateSession, h]
  · intro h
    have ht : terminateSession reg sid = (reg, [.sigterm sid], .ok ()) := by
      simp [terminateSession, h]
    have h1 : (terminateSession reg sid).1 = reg := by rw [ht]
    exact ⟨ht, by rw [h1, ht], by rw [h1, h]⟩
  · intro hnd
    simp only [handleClose]
    exact aget_adel_self reg sid hnd

/-- C3: the decoder loses nothing and reorders nothing — restoring the
newline separators to the yielded frames and appending the retained
remainder reproduces the delivered byte stream exactly, and delivering
further chunks only ever extends the already-yielded frame sequence. -/
theorem C3_decoder (chunks : List (List Char)) :
    ((decodeAll chunks).1.map (fun l => l ++ ['\n'])).flatten ++ (decodeAll chunks).2
      = chunks.flatten
    ∧ ∀ more : List (List Char), ∃ t,
        (decodeAll (chunks ++ more)).1 = (decodeAll chunks).1 ++ t := by
  constructor
  · have h := decodeFrom_spec chunks [] []
    simpa [decodeAll] using h
  · intro more
    rw [decodeAll, decodeFrom_append]
    obtain ⟨t, ht⟩ :=
      decodeFrom_extend more (decodeFrom [] [] chunks).1 (decodeFrom [] [] chunks).2
    exact ⟨t, by rw [ht]; rfl⟩

/-- C5: the session trace opens with `session_start`, closes with
`session_end` carrying the exit status, no frame-derived event is a
lifecycle event, and the events between them are exactly the per-frame
translations of the decoded frames, concatenated in decode order. -/
theorem C5_ordering (parse : String → Option AgentEvent) (sid p wd : String)
    (chunks : List (List Char)) (code : Option Int) :
    ∃ mid,
      runSession parse sid p wd chunks code
        = Ev.session_start sid p wd :: mid ++ [Ev.session_end sid code]
      ∧ (∀ e ∈ mid, e.isLifecycle = false)
      ∧ mid = (processLines parse sid wd ((decodeAll chunks).1.map String.mk) []).1
      ∧ ∀ (ls1 ls2 : List String) (m : CorrMap),
          (processLines parse sid wd (ls1 ++ ls2) m).1
            = (processLines parse sid wd ls1 m).1
              ++ (processLines parse sid wd ls2 (processLines parse sid wd ls1 m).2).1 := by
  refine ⟨_, rfl, ?_, rfl, ?_⟩
  · exact processLines_events parse sid wd _ _
  · intro ls1 ls2 m
    rw [processLines_append]

/-- C8: descriptors enter the correlation map only from `Write`/`Edit`
invocations, keyed by the invocation id with action `write`/`edit`
respectively; every other tool name leaves the map unchanged, so every
translated `fe_file_changed` reproduces a descriptor present in the map and
its action is `write` or `edit`. -/
theorem C8_correlation (id name sid wd : String) (input : ToolInput) (m : CorrMap)
    (ev : AgentEvent) :
    (name ≠ "Write" → name ≠ "Edit" → (translateToolUse id name input wd m).2 = m)
    ∧ (translateToolUse id "Write" input wd m).2 = aset m id ⟨input.file_path, "write"⟩
    ∧ (translateToolUse id "Edit" input wd m).2 = aset m id ⟨input.file_path, "edit"⟩
    ∧ (goodMap m → goodMap (translateEvent sid ev wd m).2)
    ∧ (∀ s' fp a, Ev.fe_file_changed s' fp a ∈ (translateEvent sid ev wd m).1 →
        ∃ tid, aget m tid = some ⟨fp, a⟩)
    ∧ (goodMap m → ∀ s' fp a,
        Ev.fe_file_changed s' fp a ∈ (translateEvent sid ev wd m).1 →
        a = "write" ∨ a = "edit") := by
  refine ⟨?_, ?_, ?_, ?_, ?_, ?_⟩
  · intro h1 h2
    rw [translateToolUse_map, if_neg h1, if_neg h2]
  · rw [translateToolUse_map, if_pos rfl]
  · rw [translateToolUse_map, if_neg (by decide), if_pos rfl]
  · exact (translateEvent_events sid ev wd m).2.1
  · exact (translateEvent_events sid ev wd m).2.2
  · intro hg s' fp a hmem
    obtain ⟨tid, htid⟩ := (translateEvent_events sid ev wd m).2.2 s' fp a hmem
    exact hg _ (aget_mem m tid _ htid)

/-- `getLast?` of a trace that ends in an explicit final event. -/
theorem getLast_cons_append {α : Type} (x e : α) (l : List α) :
    (x :: (l ++ [e])).getLast? = some e := by
  induction l generalizing x with
  | nil => rfl
  | cons y t ih =>
    rw [List.cons_append, List.getLast?_cons_cons]
    exact ih y

/-- C10: a trailing partial line (no newline) contributes nothing: the whole
broadcast trace is unchanged by it, the text stays in the remainder buffer,
`session_end` still closes the trace, and the close handler deregisters the
session. -/
theorem C10_partial_remainder (parse : String → Option AgentEvent) (sid p wd : String)
    (chunks : List (List Char)) (extra : List Char) (code : Option Int)
    (reg : Registry) (hnl : '\n' ∉ extra) (hnd : (reg.map Prod.fst).Nodup) :
    runSession parse sid p wd (chunks ++ [extra]) code
      = runSession parse sid p wd chunks code
    ∧ (decodeAll (chunks ++ [extra])).2 = (decodeAll chunks).2 ++ extra
    ∧ (runSession parse sid p wd (chunks ++ [extra]) code).getLast?
        = some (.session_end sid code)
    ∧ aget (handleClose reg sid code).1 sid = none := by
  have hbuf : '\n' ∉ (decodeAll chunks).2 :=
    decodeFrom_buf_no_nl chunks [] [] (by simp)
  have hstep : decodeStep (decodeAll chunks).2 extra
      = ([], (decodeAll chunks).2 ++ extra) := by
    apply decodeStep_of_no_nl
    intro hmem
    rcases List.mem_append.mp hmem with h | h
    · exact hbuf h
    · exact hnl h
  have hdec : decodeAll (chunks ++ [extra])
      = ((decodeAll chunks).1, (decodeAll chunks).2 ++ extra) := by
    rw [decodeAll, decodeFrom_append]
    show decodeFrom (decodeAll chunks).1 (decodeAll chunks).2 [extra] = _
    rw [decodeFrom, hstep]
    simp [decodeFrom]
  refine ⟨?_, by rw [hdec], ?_, ?_⟩
  · unfold runSession
    rw [hdec]
  · unfold runSession
    exact getLast_cons_append _ _ _
  · simp only [handleClose]
    exact aget_adel_self reg sid hnd

/-- Witness for C10 on a concrete stream with a dangling partial line. -/
theorem C10_partial_remainder_witness :
    runSession parseNone "s" "p" "/w" [['a', '\n'], ['b']] (some 0)
      = runSession parseNone "s" "p" "/w" [['a', '\n']] (some 0)
    ∧ aget (handleClose [("s", ⟨"p", "/w"⟩)] "s" (some 0)).1 "s" = none := by
  have h := C10_partial_remainder parseNone "s" "p" "/w" [['a', '\n']] ['b']
    (some 0) [("s", ⟨"p", "/w"⟩)] (by decide) (by decide)
  exact ⟨h.1, h.2.2.2⟩
